import Mathlib

/-!
Verification of the acoustic calibration engine of car-audio-eq-pro.

This file is a shallow embedding, over the real numbers, of the calibration
pipeline in `src/js/calibration.js` (the second, noise-floor-gated variant of
the `Calibration` class) together with the 31-band ISO grid from
`src/js/audio-processor.js`.  JavaScript numbers are modelled by `ℝ`; the
fallible entry points (`averageMeasurements`, `calculateCorrections`), which
`throw` in the source, return `Except String`.
-/

namespace CarAudioEq

noncomputable section

/-- The 31 ISO third-octave center frequencies, 20 Hz to 20 kHz
(`audio-processor.js`, `this.frequencies`). -/
def frequencies : List ℝ :=
  [20, 25, 31.5, 40, 50, 63, 80, 100, 125, 160,
   200, 250, 315, 400, 500, 630, 800, 1000, 1250, 1600,
   2000, 2500, 3150, 4000, 5000, 6300, 8000, 10000, 12500, 16000, 20000]

/-- `this.noiseFloor` (calibration.js, constructor of the gated variant). -/
def noiseFloor : ℝ := -80

/-- `this.referenceLevel` (calibration.js, constructor). -/
def referenceLevel : ℝ := -20

/-- JS `Math.max(...xs)`.  Every call site in the calibration code passes a
non-empty array; the `[]` case is unreachable there (JS would give `-∞`). -/
def listMax : List ℝ → ℝ
  | [] => 0
  | x :: xs => xs.foldl max x

/-- The JS accumulation pattern
`let sum = 0, count = 0; for (x of cand) if (p x) { sum += f x; count++ }`,
shared by `averageMeasurements`, `extractFrequencyResponse` and
`applySmoothing`. -/
def sumCount {α : Type} (cand : List α) (p : α → Prop) [DecidablePred p]
    (f : α → ℝ) : ℝ × ℕ :=
  cand.foldl (fun s x => if p x then (s.1 + f x, s.2 + 1) else s) (0, 0)

/-- One bin of `Calibration.averageMeasurements` (calibration.js:556-575):
skip values at or below the noise floor, sum the squared linear amplitudes
`(10^(dB/20))²` of the rest, divide by their count, and convert back with
`20·log10(√·)`; with no valid contribution the bin is the noise floor.
An index beyond a snapshot's length reads as the noise floor itself, which
fails the strict `>` test exactly as JS `undefined > noiseFloor` does. -/
def avgBin (ms : List (List ℝ)) (i : ℕ) : ℝ :=
  let sc := sumCount ms (fun m => m.getD i noiseFloor > noiseFloor)
    (fun m => (10 : ℝ) ^ (m.getD i noiseFloor / 20) *
              (10 : ℝ) ^ (m.getD i noiseFloor / 20))
  if 0 < sc.2 then 20 * Real.logb 10 (Real.sqrt (sc.1 / sc.2)) else noiseFloor

/-- The averaged spectrum: bin `i` of the output is `avgBin` at `i`, for the
`measurementData[0].length` bins of the first snapshot. -/
def averagedSpectrum (ms : List (List ℝ)) : List ℝ :=
  (List.range (ms.headD []).length).map (avgBin ms)

/-- `Calibration.averageMeasurements` (calibration.js:547-579), including the
`throw new Error('No measurement data')` guard on an empty buffer. -/
def averageMeasurements (ms : List (List ℝ)) : Except String (List ℝ) :=
  if ms = [] then .error "No measurement data" else .ok (averagedSpectrum ms)

/-- `nyquist / fftData.length` (calibration.js:582-584). -/
def binWidthOf (sampleRate : ℝ) (len : ℕ) : ℝ := sampleRate / 2 / len

/-- The bin indices traversed by the loop
`for (let bin = startBin; bin <= endBin && bin < fftData.length; bin++)`
(calibration.js:596): the integers from `startBin` up to
`min endBin (len - 1)`. -/
def loopBins (startBin endBin : ℤ) (len : ℕ) : List ℤ :=
  (List.range (min endBin ((len : ℤ) - 1) + 1 - startBin).toNat).map
    (fun (k : ℕ) => startBin + (k : ℤ))

/-- The bin indices at which `fftData[bin]` is actually read: the loop indices
that additionally pass the `bin >= 0` guard (calibration.js:597). -/
def accessedBins (startBin endBin : ℤ) (len : ℕ) : List ℤ :=
  (loopBins startBin endBin len).filter (fun b => decide (0 ≤ b))

/-- One band of `Calibration.extractFrequencyResponse` (calibration.js:587-603):
average the bins of a ±1 window around `freq / binWidth` that lie in range and
are strictly above the noise floor; the noise floor if none qualify. -/
def extractBand (fftData : List ℝ) (binWidth freq : ℝ) : ℝ :=
  let centerBin := freq / binWidth
  let startBin := ⌊centerBin - 1⌋
  let endBin := ⌈centerBin + 1⌉
  let sc := sumCount (accessedBins startBin endBin fftData.length)
    (fun b => fftData.getD b.toNat 0 > noiseFloor)
    (fun b => fftData.getD b.toNat 0)
  if 0 < sc.2 then sc.1 / sc.2 else noiseFloor

/-- `Calibration.extractFrequencyResponse` (calibration.js:581-607). -/
def extractFrequencyResponse (fftData : List ℝ) (targetFrequencies : List ℝ)
    (sampleRate : ℝ) : List ℝ :=
  targetFrequencies.map (extractBand fftData (binWidthOf sampleRate fftData.length))

/-- The `{'1/3':1/3,'1/6':1/6,'1/12':1/12}[t] || 1/3` lookup
(calibration.js:613-617); every unrecognized string falls back to `1/3`. -/
def octaveFraction (smoothingType : String) : ℝ :=
  if smoothingType = "1/3" then 1/3
  else if smoothingType = "1/6" then 1/6
  else if smoothingType = "1/12" then 1/12
  else 1/3

/-- `Calibration.applySmoothing` (calibration.js:609-645): for each output
index, average the input values of the bands whose center frequency lies in
`[f·2^(-q/2), f·2^(q/2)]` and that are strictly above the noise floor, reading
from the *original* `data`; with no valid contribution the entry keeps its
original value (the `[...data]` copy). -/
def applySmoothing (data : List ℝ) (smoothingType : String) : List ℝ :=
  let q := octaveFraction smoothingType
  (List.range data.length).map (fun i =>
    let centerFreq := frequencies.getD i 0
    let lowerBound := centerFreq * (2 : ℝ) ^ (-q / 2)
    let upperBound := centerFreq * (2 : ℝ) ^ (q / 2)
    let sc := sumCount (List.range frequencies.length)
      (fun j => lowerBound ≤ frequencies.getD j 0 ∧
                frequencies.getD j 0 ≤ upperBound ∧
                data.getD j 0 > noiseFloor)
      (fun j => data.getD j 0)
    if 0 < sc.2 then sc.1 / sc.2 else data.getD i 0)

/-- `generateHarmanCurve` (calibration.js:324-334). -/
def harmanCurve : List ℝ :=
  frequencies.map (fun freq =>
    if freq < 100 then 6 else if freq < 200 then 3
    else if freq < 1000 then 0 else if freq < 10000 then -2 else -4)

/-- `generateBKCurve` (calibration.js:336-343). -/
def bkCurve : List ℝ :=
  frequencies.map (fun freq => 10 - (Real.logb 10 freq - 1) * 3.33)

/-- `this.targetCurves` (calibration.js:311-316).  `custom` is initialized to
31 zeros in the constructor and is never reassigned anywhere in the
repository.  An unknown key gives `undefined` in JS; modelled as `none`. -/
def targetCurves (name : String) : Option (List ℝ) :=
  if name = "flat" then some (List.replicate 31 0)
  else if name = "harman" then some harmanCurve
  else if name = "b&k" then some bkCurve
  else if name = "custom" then some (List.replicate 31 0)
  else none

/-- `Math.max(-10, Math.min(10, c))` (calibration.js:523). -/
def clampCorrection (c : ℝ) : ℝ := max (-10) (min 10 c)

/-- `Math.round(x * 2) / 2` (calibration.js:526,541). -/
def roundHalf (x : ℝ) : ℝ := ((round (x * 2) : ℤ) : ℝ) / 2

/-- `Calibration.smoothCorrections` (calibration.js:535-545): interior entries
become the re-quantized 3-point moving average of the *original* corrections;
the two endpoints are untouched. -/
def smoothCorrections (corrections : List ℝ) : List ℝ :=
  (List.range corrections.length).map (fun i =>
    if 1 ≤ i ∧ i + 1 < corrections.length then
      roundHalf ((corrections.getD (i-1) 0 + corrections.getD i 0 +
                  corrections.getD (i+1) 0) / 3)
    else corrections.getD i 0)

/-- `Calibration.calculateCorrections` (calibration.js:486-533).  The empty
check reproduces `throw new Error('No valid measurement data collected')`.
With an unrecognized curve name the JS arithmetic would produce a NaN-filled
vector (`undefined - measured`); real numbers have no NaN, so that branch is
modelled as an error value — no claim depends on it. -/
def calculateCorrections (measurementData : List (List ℝ))
    (targetCurveName smoothing : String) (sampleRate : ℝ) :
    Except String (List ℝ) :=
  if measurementData = [] then .error "No valid measurement data collected"
  else
    match targetCurves targetCurveName with
    | none => .error "unknown target curve"
    | some targetCurve =>
      let avgMeasurement := averagedSpectrum measurementData
      let measuredResponse :=
        extractFrequencyResponse avgMeasurement frequencies sampleRate
      let smoothedResponse := applySmoothing measuredResponse smoothing
      let maxResponse := listMax smoothedResponse
      let normalizedResponse :=
        smoothedResponse.map (fun v => v - maxResponse + referenceLevel)
      let corrections := (List.range frequencies.length).map (fun i =>
        roundHalf (clampCorrection
          ((targetCurve.getD i 0 - normalizedResponse.getD i 0) * 0.7)))
      .ok (smoothCorrections corrections)

/-- One step of the measurement loop in `Calibration.collectMeasurements`
(calibration.js:462-473): while the discard counter is positive it is
decremented and the frame dropped; afterwards a frame is appended exactly when
its peak is strictly above the noise floor. -/
def collectStep (s : ℕ × List (List ℝ)) (snap : List ℝ) : ℕ × List (List ℝ) :=
  match s.1 with
  | d + 1 => (d, s.2)
  | 0 => (0, if listMax snap > noiseFloor then s.2 ++ [snap] else s.2)

/-- The retained snapshots of one session of `collectMeasurements`
(calibration.js:443-484), as a function of the arriving frames; the discard
counter starts at 10. -/
def collectMeasurements (incoming : List (List ℝ)) : List (List ℝ) :=
  (incoming.foldl collectStep (10, [])).2

/-- The snapshot values contributing to bin `i` according to the specification
of the averager: the values at `i`, those strictly above the noise floor. -/
def validValsAt (ms : List (List ℝ)) (i : ℕ) : List ℝ :=
  (ms.map (fun m => m.getD i noiseFloor)).filter (fun v => decide (v > noiseFloor))

/-- The specification's per-bin power sum `Σ (10^(v/20))²` over the valid
contributors. -/
def powerSumAt (ms : List (List ℝ)) (i : ℕ) : ℝ :=
  ((validValsAt ms i).map (fun v => ((10 : ℝ) ^ (v / 20)) ^ 2)).sum

end

/-! ### Generic list lemmas -/

theorem getD_map_range {α : Type} (n : ℕ) (g : ℕ → α) (i : ℕ) (d : α) :
    ((List.range n).map g).getD i d = if i < n then g i else d := by
  rcases lt_or_ge i n with h | h
  · rw [List.getD_eq_getElem?_getD, List.getElem?_map, List.getElem?_range h]
    simp [h]
  · rw [List.getD_eq_getElem?_getD, List.getElem?_map,
      List.getElem?_eq_none (by simpa using h)]
    simp [Nat.not_lt.mpr h]

theorem mem_map_range {α : Type} {n : ℕ} {g : ℕ → α} {x : α} :
    x ∈ (List.range n).map g ↔ ∃ i, i < n ∧ g i = x := by
  simp [List.mem_map, List.mem_range]

theorem sumCount_eq {α : Type} (cand : List α) (p : α → Prop) [DecidablePred p]
    (f : α → ℝ) :
    sumCount cand p f =
      (((cand.filter fun x => decide (p x)).map f).sum,
        (cand.filter fun x => decide (p x)).length) := by
  suffices h : ∀ (l : List α) (s0 : ℝ) (c0 : ℕ),
      l.foldl (fun s x => if p x then (s.1 + f x, s.2 + 1) else s) (s0, c0) =
        (s0 + ((l.filter fun x => decide (p x)).map f).sum,
          c0 + (l.filter fun x => decide (p x)).length) by
    rw [sumCount, h]; simp
  intro l
  induction l with
  | nil => intro s0 c0; simp
  | cons a t ih =>
    intro s0 c0
    by_cases hp : p a
    · rw [List.foldl_cons, if_pos hp, ih, List.filter_cons,
        if_pos (decide_eq_true hp)]
      rw [Prod.ext_iff]
      refine ⟨?_, ?_⟩
      · simp [List.sum_cons]; ring
      · simp [Nat.add_comm, Nat.add_assoc, Nat.add_left_comm]
    · rw [List.foldl_cons, if_neg hp, ih, List.filter_cons,
        if_neg (by simpa using hp)]

theorem list_sum_div_length_le {l : List ℝ} {B : ℝ} (hne : l ≠ [])
    (hb : ∀ x ∈ l, x ≤ B) : l.sum / l.length ≤ B := by
  have hlen : 0 < (l.length : ℝ) := by
    have := List.length_pos.mpr hne
    exact_mod_cast this
  rw [div_le_iff₀ hlen]
  calc l.sum ≤ l.length • B := List.sum_le_card_nsmul l B hb
    _ = B * l.length := by rw [nsmul_eq_mul, mul_comm]

theorem list_le_sum_div_length {l : List ℝ} {B : ℝ} (hne : l ≠ [])
    (hb : ∀ x ∈ l, B ≤ x) : B ≤ l.sum / l.length := by
  have hlen : 0 < (l.length : ℝ) := by
    have := List.length_pos.mpr hne
    exact_mod_cast this
  rw [le_div_iff₀ hlen]
  calc B * l.length = l.length • B := by rw [nsmul_eq_mul, mul_comm]
    _ ≤ l.sum := List.card_nsmul_le_sum l B hb

theorem listMax_le {l : List ℝ} {B : ℝ} (hne : l ≠ []) (hb : ∀ x ∈ l, x ≤ B) :
    listMax l ≤ B := by
  match l, hne with
  | x :: xs, _ =>
    rw [listMax]
    suffices h : ∀ (t : List ℝ) (a : ℝ), a ≤ B → (∀ y ∈ t, y ≤ B) →
        t.foldl max a ≤ B by
      exact h xs x (hb x (by simp)) (fun y hy => hb y (by simp [hy]))
    intro t
    induction t with
    | nil => intro a ha _; simpa using ha
    | cons y ys ih =>
      intro a ha hys
      rw [List.foldl_cons]
      exact ih (max a y) (max_le ha (hys y (by simp)))
        (fun z hz => hys z (by simp [hz]))

theorem le_foldl_max (t : List ℝ) (b : ℝ) : b ≤ t.foldl max b := by
  induction t generalizing b with
  | nil => exact le_rfl
  | cons y ys ih => exact le_trans (le_max_left b y) (ih (max b y))

theorem mem_le_foldl_max {a : ℝ} (t : List ℝ) (b : ℝ) (ha : a ∈ t) :
    a ≤ t.foldl max b := by
  induction t generalizing b with
  | nil => simp at ha
  | cons y ys ih =>
    rcases List.mem_cons.mp ha with rfl | h
    · exact le_trans (le_max_right b a) (le_foldl_max ys (max b a))
    · exact ih (max b y) h

theorem le_listMax {l : List ℝ} {a : ℝ} (ha : a ∈ l) : a ≤ listMax l := by
  match l with
  | x :: xs =>
    rw [listMax]
    rcases List.mem_cons.mp ha with rfl | h
    · exact le_foldl_max xs a
    · exact mem_le_foldl_max xs x h

/-! ### The power averager, bin by bin -/

/-- The imperative per-bin loop of `averageMeasurements`, rephrased through the
list of valid contributing values. -/
theorem avgBin_eq (ms : List (List ℝ)) (i : ℕ) :
    avgBin ms i =
      if 0 < (validValsAt ms i).length then
        20 * Real.logb 10
          (Real.sqrt (powerSumAt ms i / (validValsAt ms i).length))
      else noiseFloor := by
  have hfil : validValsAt ms i =
      (ms.filter fun m => decide (m.getD i noiseFloor > noiseFloor)).map
        (fun m => m.getD i noiseFloor) := by
    rw [validValsAt, List.filter_map]
    rfl
  have hsum : powerSumAt ms i =
      ((ms.filter fun m => decide (m.getD i noiseFloor > noiseFloor)).map
        (fun m => (10 : ℝ) ^ (m.getD i noiseFloor / 20) *
                  (10 : ℝ) ^ (m.getD i noiseFloor / 20))).sum := by
    rw [powerSumAt, hfil, List.map_map]
    congr 1
    apply List.map_congr_left
    intro m _
    simp only [Function.comp_apply]
    rw [pow_two]
  rw [avgBin, sumCount_eq, hfil, hsum]
  simp [List.length_map]

/-- Every valid contributor is strictly above the noise floor. -/
theorem validValsAt_gt {ms : List (List ℝ)} {i : ℕ} {v : ℝ}
    (hv : v ∈ validValsAt ms i) : noiseFloor < v := by
  rw [validValsAt] at hv
  rcases List.mem_filter.mp hv with ⟨_, h⟩
  simpa using h

/-- The averaged bin never falls below the noise floor. -/
theorem avgBin_ge (ms : List (List ℝ)) (i : ℕ) : noiseFloor ≤ avgBin ms i := by
  rw [avgBin_eq]
  split_ifs with h
  · set vs := validValsAt ms i with hvs
    set t : ℝ := (10 : ℝ) ^ (noiseFloor / 20) with ht
    have ht0 : 0 < t := Real.rpow_pos_of_pos (by norm_num) _
    have hne : vs.map (fun v => ((10 : ℝ) ^ (v / 20)) ^ 2) ≠ [] := by
      intro hc
      rw [List.map_eq_nil] at hc
      rw [hc] at h; simp at h
    have hbound : t ^ 2 ≤ powerSumAt ms i / vs.length := by
      have hlen : ((vs.map (fun v => ((10 : ℝ) ^ (v / 20)) ^ 2)).length : ℝ)
          = (vs.length : ℝ) := by simp
      have := list_le_sum_div_length (B := t ^ 2) hne ?_
      · rw [hlen] at this
        exact this.trans_eq (by rw [powerSumAt])
      · intro x hx
        rcases List.mem_map.mp hx with ⟨v, hv, rfl⟩
        have hvt : t ≤ (10 : ℝ) ^ (v / 20) := by
          rw [ht]
          rw [Real.rpow_le_rpow_left_iff (by norm_num : (1:ℝ) < 10)]
          have := validValsAt_gt hv
          linarith
        exact pow_le_pow_left ht0.le hvt 2
    have hsq : t ≤ Real.sqrt (powerSumAt ms i / vs.length) := by
      have := Real.sqrt_le_sqrt hbound
      rwa [Real.sqrt_sq ht0.le] at this
    have hlogb : noiseFloor / 20 ≤
        Real.logb 10 (Real.sqrt (powerSumAt ms i / vs.length)) := by
      have h10 : (1:ℝ) < 10 := by norm_num
      have := (Real.logb_le_logb h10 ht0 (lt_of_lt_of_le ht0 hsq)).mpr hsq
      rwa [ht, Real.logb_rpow (by norm_num) (by norm_num)] at this
    linarith
  · exact le_rfl

/-- Power averaging is the identity on bins where every snapshot agrees. -/
theorem avgBin_const {ms : List (List ℝ)} {i : ℕ} {L : ℝ} (hne : ms ≠ [])
    (hL : noiseFloor < L) (hall : ∀ m ∈ ms, m.getD i noiseFloor = L) :
    avgBin ms i = L := by
  have hmap : ms.map (fun m => m.getD i noiseFloor) = List.replicate ms.length L := by
    apply List.eq_replicate.mpr
    refine ⟨by simp, ?_⟩
    intro b hb
    rcases List.mem_map.mp hb with ⟨m, hm, rfl⟩
    exact hall m hm
  have hvs : validValsAt ms i = List.replicate ms.length L := by
    rw [validValsAt, hmap, List.filter_eq_self.mpr]
    intro a ha
    have : a = L := List.eq_of_mem_replicate ha
    simpa [this] using hL
  have hlen : 0 < (validValsAt ms i).length := by
    rw [hvs, List.length_replicate]
    exact List.length_pos.mpr hne
  have hsum : powerSumAt ms i = (ms.length : ℝ) * ((10 : ℝ) ^ (L / 20)) ^ 2 := by
    rw [powerSumAt, List.sum_eq_card_nsmul _ (((10 : ℝ) ^ (L / 20)) ^ 2)]
    · simp [hvs, mul_comm]
    · intro x hx
      rcases List.mem_map.mp hx with ⟨v, hv, rfl⟩
      rw [hvs] at hv
      rw [List.eq_of_mem_replicate hv]
  rw [avgBin_eq, if_pos hlen, hvs, List.length_replicate, hsum]
  have hn0 : (ms.length : ℝ) ≠ 0 := by
    have := List.length_pos.mpr hne
    positivity
  rw [mul_div_cancel_left₀ _ hn0, Real.sqrt_sq (Real.rpow_nonneg (by norm_num) _),
    Real.logb_rpow (by norm_num) (by norm_num)]
  ring

/-! ### Claims about the averager -/

/-- C1: for every non-empty measurement list and bin index, the averaged
spectrum at that bin is `20·log10(√(S/c))`, where `S` sums `(10^(v/20))²` over
exactly the snapshot values `v` at that bin strictly above the noise floor and
`c` counts them; with `c = 0` the bin is the noise-floor value itself (a plain
real number — never `-∞` or NaN). -/
theorem averaging_per_bin_formula (ms : List (List ℝ)) (i : ℕ)
    (hne : ms ≠ []) (hlen : ∀ m ∈ ms, i < m.length) :
    ∃ out, averageMeasurements ms = .ok out ∧
      out.getD i 0 =
        (if 0 < (validValsAt ms i).length then
          20 * Real.logb 10
            (Real.sqrt (powerSumAt ms i / (validValsAt ms i).length))
        else noiseFloor) := by
  refine ⟨averagedSpectrum ms, by rw [averageMeasurements, if_neg hne], ?_⟩
  have hi : i < (ms.headD []).length := by
    match ms, hne with
    | m :: t, _ => exact hlen m (by simp)
  rw [averagedSpectrum, getD_map_range, if_pos hi]
  exact avgBin_eq ms i

/-- Witness for C1 at the one-snapshot list `[[0]]`, bin 0. -/
theorem averaging_per_bin_formula_witness :
    ([[(0:ℝ)]] ≠ ([] : List (List ℝ))) ∧
    (∀ m ∈ [[(0:ℝ)]], 0 < m.length) ∧
    ∃ out, averageMeasurements [[(0:ℝ)]] = .ok out ∧
      out.getD 0 0 =
        (if 0 < (validValsAt [[(0:ℝ)]] 0).length then
          20 * Real.logb 10
            (Real.sqrt (powerSumAt [[(0:ℝ)]] 0 / (validValsAt [[(0:ℝ)]] 0).length))
        else noiseFloor) :=
  ⟨by simp, by simp, averaging_per_bin_formula [[(0:ℝ)]] 0 (by simp)
    (by intro m hm; simp at hm; simp [hm])⟩

/-- C8: averaging any number `n ≥ 1` of snapshots that all equal `L` at a bin,
with `L` strictly above the noise floor, returns exactly `L` at that bin. -/
theorem power_average_identity (ms : List (List ℝ)) (i : ℕ) (L : ℝ)
    (hne : ms ≠ []) (hL : noiseFloor < L)
    (hall : ∀ m ∈ ms, m.getD i noiseFloor = L) :
    ∃ out, averageMeasurements ms = .ok out ∧ out.getD i 0 = L := by
  refine ⟨averagedSpectrum ms, by rw [averageMeasurements, if_neg hne], ?_⟩
  have hi : i < (ms.headD []).length := by
    match ms, hne with
    | m :: t, _ =>
      simp only [List.headD_cons]
      by_contra hcon
      push_neg at hcon
      have hm := hall m (by simp)
      rw [List.getD_eq_default m noiseFloor hcon] at hm
      linarith
  rw [averagedSpectrum, getD_map_range, if_pos hi]
  exact avgBin_const hne hL hall

/-- Witness for C8: three copies of the constant `-30` snapshot, bin 0. -/
theorem power_average_identity_witness :
    (List.replicate 3 [(-30:ℝ)] ≠ ([] : List (List ℝ))) ∧
    noiseFloor < (-30:ℝ) ∧
    ∃ out, averageMeasurements (List.replicate 3 [(-30:ℝ)]) = .ok out ∧
      out.getD 0 0 = (-30:ℝ) :=
  ⟨by simp, by rw [noiseFloor]; norm_num,
    power_average_identity (List.replicate 3 [(-30:ℝ)]) 0 (-30)
      (by simp) (by rw [noiseFloor]; norm_num)
      (by intro m hm; rw [List.eq_of_mem_replicate hm]; simp)⟩

/-- C9: every bin of the averaged spectrum of a non-empty measurement list is
at least the noise floor: a real number, never below `-80`, `-∞` or NaN. -/
theorem averaged_bins_above_floor (ms : List (List ℝ)) (hne : ms ≠ []) :
    ∃ out, averageMeasurements ms = .ok out ∧ ∀ x ∈ out, noiseFloor ≤ x := by
  refine ⟨averagedSpectrum ms, by rw [averageMeasurements, if_neg hne], ?_⟩
  intro x hx
  rcases mem_map_range.mp hx with ⟨j, _, rfl⟩
  exact avgBin_ge ms j

/-- Witness for C9 at a two-snapshot list mixing sub-floor and valid bins. -/
theorem averaged_bins_above_floor_witness :
    ([[(-90:ℝ), 0], [(-10:ℝ), -100]] ≠ ([] : List (List ℝ))) ∧
    ∃ out, averageMeasurements [[(-90:ℝ), 0], [(-10:ℝ), -100]] = .ok out ∧
      ∀ x ∈ out, noiseFloor ≤ x :=
  ⟨by simp, averaged_bins_above_floor [[(-90:ℝ), 0], [(-10:ℝ), -100]] (by simp)⟩

/-! ### Collection and the empty-session guard -/

/-- C4: over one session, the retained snapshots are exactly the submissions
after the first 10 whose peak is strictly above the noise floor, in order;
everything else is silently dropped (`collectMeasurements` is total), and the
retained list — hence the count and the input to averaging — contains nothing
else. -/
theorem collect_drop_filter (incoming : List (List ℝ)) :
    collectMeasurements incoming =
      (incoming.drop 10).filter (fun s => decide (listMax s > noiseFloor)) := by
  suffices h : ∀ (l : List (List ℝ)) (d : ℕ) (acc : List (List ℝ)),
      (l.foldl collectStep (d, acc)).2 =
        acc ++ (l.drop d).filter (fun s => decide (listMax s > noiseFloor)) by
    simpa using h incoming 10 []
  intro l
  induction l with
  | nil => intro d acc; simp
  | cons s t ih =>
    intro d acc
    match d with
    | dd + 1 =>
      rw [List.foldl_cons]
      show (t.foldl collectStep (dd, acc)).2 = _
      rw [ih dd acc, List.drop_succ_cons]
    | 0 =>
      rw [List.foldl_cons]
      show (t.foldl collectStep
        (0, if listMax s > noiseFloor then acc ++ [s] else acc)).2 = _
      rw [List.drop_zero]
      by_cases hp : listMax s > noiseFloor
      · rw [if_pos hp, ih 0 (acc ++ [s]), List.filter_cons,
          if_pos (decide_eq_true hp)]
        simp
      · rw [if_neg hp, ih 0 acc, List.filter_cons, if_neg (by simpa using hp),
          List.drop_zero]

/-- C6: with zero retained snapshots, `calculateCorrections` fails with the
empty-measurement error and never returns any (partial) correction vector. -/
theorem empty_session_errors (name sm : String) (sr : ℝ) :
    calculateCorrections [] name sm sr =
      .error "No valid measurement data collected" ∧
    ∀ v, calculateCorrections [] name sm sr ≠ .ok v := by
  refine ⟨by rw [calculateCorrections, if_pos rfl], ?_⟩
  intro v h
  rw [calculateCorrections, if_pos rfl] at h
  exact Except.noConfusion h

/-! ### Extraction: bounds of the bin window -/

theorem mem_loopBins {startBin endBin : ℤ} {len : ℕ} {b : ℤ} :
    b ∈ loopBins startBin endBin len ↔
      startBin ≤ b ∧ b ≤ min endBin ((len : ℤ) - 1) := by
  simp only [loopBins, List.mem_map, List.mem_range]
  constructor
  · rintro ⟨k, hk, rfl⟩
    omega
  · rintro ⟨h1, h2⟩
    exact ⟨(b - startBin).toNat, by omega, by omega⟩

theorem mem_accessedBins {startBin endBin : ℤ} {len : ℕ} {b : ℤ} :
    b ∈ accessedBins startBin endBin len ↔
      startBin ≤ b ∧ b ≤ min endBin ((len : ℤ) - 1) ∧ 0 ≤ b := by
  rw [accessedBins]
  simp only [List.mem_filter, mem_loopBins, decide_eq_true_eq]
  tauto

/-- The accessed bins that additionally pass the noise-floor test — the bins
that actually contribute to a band of `extractFrequencyResponse`. -/
noncomputable def keptBins (fftData : List ℝ) (startBin endBin : ℤ) : List ℤ :=
  (accessedBins startBin endBin fftData.length).filter
    (fun b => decide (fftData.getD b.toNat 0 > noiseFloor))

/-- C10: `extractFrequencyResponse` is total for every target frequency: the
`fftData` reads all happen at indices in `[0, fftData.length)`, and a band
whose window holds no bin strictly above the noise floor — in particular a
band entirely above the covered range, where the window is empty — yields the
noise-floor value instead of an out-of-bounds access. -/
theorem extraction_reads_in_bounds (fftData : List ℝ) (sampleRate freq : ℝ) :
    ((accessedBins ⌊freq / binWidthOf sampleRate fftData.length - 1⌋
        ⌈freq / binWidthOf sampleRate fftData.length + 1⌉ fftData.length).all
      (fun b => decide (0 ≤ b ∧ b < (fftData.length : ℤ)))) = true ∧
    extractBand fftData (binWidthOf sampleRate fftData.length) freq =
      (if 0 < (keptBins fftData ⌊freq / binWidthOf sampleRate fftData.length - 1⌋
          ⌈freq / binWidthOf sampleRate fftData.length + 1⌉).length then
        ((keptBins fftData ⌊freq / binWidthOf sampleRate fftData.length - 1⌋
            ⌈freq / binWidthOf sampleRate fftData.length + 1⌉).map
          (fun b => fftData.getD b.toNat 0)).sum /
          (keptBins fftData ⌊freq / binWidthOf sampleRate fftData.length - 1⌋
            ⌈freq / binWidthOf sampleRate fftData.length + 1⌉).length
      else noiseFloor) := by
  constructor
  · rw [List.all_eq_true]
    intro b hb
    rw [decide_eq_true_eq]
    have := mem_accessedBins.mp hb
    omega
  · rw [extractBand, sumCount_eq, keptBins]

/-! ### Quantization and clamping of the final vector -/

theorem round_le_round {x y : ℝ} (h : x ≤ y) : round x ≤ round y := by
  rw [round_eq, round_eq]
  exact Int.floor_le_floor (by linarith)

/-- `Math.round(x*2)/2` of a value in `[-10, 10]` is a half-integer in
`[-10, 10]`. -/
theorem roundHalf_quantized {x : ℝ} (h1 : -10 ≤ x) (h2 : x ≤ 10) :
    -10 ≤ roundHalf x ∧ roundHalf x ≤ 10 ∧ ∃ k : ℤ, roundHalf x = (k : ℝ) / 2 := by
  have hcast20 : ((-20 : ℤ) : ℝ) = (-20 : ℝ) := by norm_num
  have hl : (-20 : ℤ) ≤ round (x * 2) := by
    have h := round_le_round (x := ((-20 : ℤ) : ℝ)) (y := x * 2)
      (by rw [hcast20]; linarith)
    rwa [round_intCast] at h
  have hu : round (x * 2) ≤ (20 : ℤ) := by
    have h := round_le_round (x := x * 2) (y := ((20 : ℤ) : ℝ))
      (by push_cast; linarith)
    rwa [round_intCast] at h
  refine ⟨?_, ?_, round (x * 2), rfl⟩
  · rw [roundHalf]
    have : ((-20 : ℤ) : ℝ) ≤ (round (x * 2) : ℝ) := by exact_mod_cast hl
    rw [hcast20] at this
    linarith
  · rw [roundHalf]
    have : ((round (x * 2) : ℤ) : ℝ) ≤ ((20 : ℤ) : ℝ) := by exact_mod_cast hu
    push_cast at this
    linarith

/-- The clamp-then-quantize step always lands in `[-10, 10]` on the half-dB
grid, whatever raw correction it receives. -/
theorem clampRound_quantized (c : ℝ) :
    -10 ≤ roundHalf (clampCorrection c) ∧ roundHalf (clampCorrection c) ≤ 10 ∧
      ∃ k : ℤ, roundHalf (clampCorrection c) = (k : ℝ) / 2 := by
  apply roundHalf_quantized
  · exact le_max_left _ _
  · exact max_le (by norm_num) (min_le_left _ _)

/-- `smoothCorrections` preserves membership of `[-10, 10]` on the half-dB
grid. -/
theorem smoothCorrections_quantized {cs : List ℝ}
    (h : ∀ x ∈ cs, -10 ≤ x ∧ x ≤ 10 ∧ ∃ k : ℤ, x = (k : ℝ) / 2) :
    ∀ x ∈ smoothCorrections cs,
      -10 ≤ x ∧ x ≤ 10 ∧ ∃ k : ℤ, x = (k : ℝ) / 2 := by
  intro x hx
  rcases mem_map_range.mp hx with ⟨i, hi, rfl⟩
  have hgetD : ∀ j, j < cs.length →
      -10 ≤ cs.getD j 0 ∧ cs.getD j 0 ≤ 10 ∧
        ∃ k : ℤ, cs.getD j 0 = (k : ℝ) / 2 := by
    intro j hj
    apply h
    rw [List.getD_eq_getElem cs 0 hj]
    exact List.getElem_mem hj
  split_ifs with hint
  · obtain ⟨h1, _⟩ := hint
    have ha := hgetD (i - 1) (by omega)
    have hb := hgetD i hi
    have hc := hgetD (i + 1) (by omega)
    apply roundHalf_quantized
    · have := ha.1; have := hb.1; have := hc.1
      linarith
    · have := ha.2.1; have := hb.2.1; have := hc.2.1
      linarith
  · exact hgetD i hi

/-- C3: for every non-empty retained measurement list and recognized target
curve, the calibration succeeds and every entry of the final vector — after
neighbor smoothing and re-quantization — lies in `[-10, 10]` dB and is an
exact integer multiple of 0.5. -/
theorem corrections_clamped_quantized (ms : List (List ℝ))
    (name sm : String) (sr : ℝ) (hne : ms ≠ [])
    (hname : (targetCurves name).isSome = true) :
    ∃ out, calculateCorrections ms name sm sr = .ok out ∧
      ∀ x ∈ out, -10 ≤ x ∧ x ≤ 10 ∧ ∃ k : ℤ, x = (k : ℝ) / 2 := by
  rcases Option.isSome_iff_exists.mp hname with ⟨curve, hcurve⟩
  rw [calculateCorrections, if_neg hne, hcurve]
  refine ⟨_, rfl, ?_⟩
  apply smoothCorrections_quantized
  intro x hx
  rcases mem_map_range.mp hx with ⟨i, _, rfl⟩
  exact clampRound_quantized _

/-! ### Fractional-octave windows: bounds on `2^(±q/2)` -/

theorem rpow_upper_third : (2:ℝ) ^ ((1/3 : ℝ) / 2) < 5/4 := by
  have h6 : ((2:ℝ) ^ ((1/3 : ℝ) / 2)) ^ (6:ℕ) = 2 := by
    rw [← Real.rpow_natCast ((2:ℝ) ^ ((1/3 : ℝ) / 2)) 6,
      ← Real.rpow_mul (by norm_num : (0:ℝ) ≤ 2)]
    norm_num
  by_contra hcon
  push_neg at hcon
  have hp := pow_le_pow_left₀ (by norm_num : (0:ℝ) ≤ 5/4) hcon 6
  rw [h6] at hp
  norm_num at hp

theorem rpow_upper_third_ge_one : (1:ℝ) ≤ (2:ℝ) ^ ((1/3 : ℝ) / 2) :=
  Real.one_le_rpow (by norm_num) (by norm_num)

theorem rpow_lower_third_le_one : (2:ℝ) ^ (-(1/3 : ℝ) / 2) ≤ 1 :=
  Real.rpow_le_one_of_one_le_of_nonpos (by norm_num) (by norm_num)

theorem rpow_lower_third_gt : (4/5 : ℝ) < (2:ℝ) ^ (-(1/3 : ℝ) / 2) := by
  rw [neg_div, Real.rpow_neg (by norm_num : (0:ℝ) ≤ 2)]
  have h := one_div_lt_one_div_of_lt
    (Real.rpow_pos_of_pos (by norm_num) ((1/3 : ℝ) / 2)) rpow_upper_third
  rw [one_div, one_div] at h
  calc (4/5 : ℝ) = ((5/4 : ℝ))⁻¹ := by norm_num
    _ < _ := h

/-! ### The smoothing loop through its kept-index list -/

/-- The band indexes kept by one pass of the `applySmoothing` inner loop:
center frequency inside `[f·2^(-q/2), f·2^(q/2)]` and value strictly above
the noise floor. -/
noncomputable def smoothKept (data : List ℝ) (q : ℝ) (i : ℕ) : List ℕ :=
  (List.range frequencies.length).filter (fun j =>
    decide (frequencies.getD i 0 * (2:ℝ) ^ (-q / 2) ≤ frequencies.getD j 0 ∧
            frequencies.getD j 0 ≤ frequencies.getD i 0 * (2:ℝ) ^ (q / 2) ∧
            data.getD j 0 > noiseFloor))

theorem applySmoothing_getD (data : List ℝ) (st : String) (i : ℕ)
    (hi : i < data.length) :
    (applySmoothing data st).getD i 0 =
      if 0 < (smoothKept data (octaveFraction st) i).length then
        ((smoothKept data (octaveFraction st) i).map
          (fun j => data.getD j 0)).sum /
          (smoothKept data (octaveFraction st) i).length
      else data.getD i 0 := by
  simp only [applySmoothing]
  rw [getD_map_range, if_pos hi, sumCount_eq, smoothKept]

/-- Modelled from the spec's words for claim C5 only: the smoothing window
with upper bound `f·2·2^(q/2)` — the spec text carries an extra factor 2
that `applySmoothing` in the source does not have. -/
noncomputable def specWindowKept (data : List ℝ) (q : ℝ) (i : ℕ) : List ℕ :=
  (List.range frequencies.length).filter (fun j =>
    decide (frequencies.getD i 0 * (2:ℝ) ^ (-q / 2) ≤ frequencies.getD j 0 ∧
            frequencies.getD j 0 ≤ frequencies.getD i 0 * 2 * (2:ℝ) ^ (q / 2) ∧
            data.getD j 0 > noiseFloor))

/-- The band value claim C5 asserts for `applySmoothing`. -/
noncomputable def specWindowMean (data : List ℝ) (q : ℝ) (i : ℕ) : ℝ :=
  if 0 < (specWindowKept data q i).length then
    ((specWindowKept data q i).map (fun j => data.getD j 0)).sum /
      (specWindowKept data q i).length
  else data.getD i 0

/-- Every grid frequency from band 1 on is at least 25 Hz. -/
theorem freq_ge_25 : ∀ j, 1 ≤ j → j < 31 → (25:ℝ) ≤ frequencies.getD j 0 := by
  intro j h1 h2
  interval_cases j <;> norm_num [frequencies]

/-- Every grid frequency from band 4 on is at least 50 Hz. -/
theorem freq_ge_50 : ∀ j, 4 ≤ j → j < 31 → (50:ℝ) ≤ frequencies.getD j 0 := by
  intro j h1 h2
  interval_cases j <;> norm_num [frequencies]

/-- The witness input for the C5 counterexample: 31 bands, all 0 dB except
band 1 (25 Hz) at 6 dB. -/
def d5 : List ℝ :=
  [0, 6, 0, 0, 0, 0, 0, 0, 0, 0, 0, 0, 0, 0, 0, 0,
   0, 0, 0, 0, 0, 0, 0, 0, 0, 0, 0, 0, 0, 0, 0]

theorem smoothKept_d5 : smoothKept d5 (1/3) 0 = [0] := by
  have hf0 : frequencies.getD 0 0 = 20 := by norm_num [frequencies]
  rw [smoothKept, hf0]
  rw [show frequencies.length = 31 from rfl]
  rw [List.filter_congr (q := fun j => decide (j = 0)) ?_]
  · decide
  · intro j hj
    rw [List.mem_range] at hj
    rw [decide_eq_decide]
    constructor
    · rintro ⟨hlo, hhi, -⟩
      by_contra hne
      have h25 := freq_ge_25 j (by omega) hj
      linarith [rpow_upper_third]
    · rintro rfl
      refine ⟨?_, ?_, ?_⟩
      · rw [hf0]
        linarith [rpow_lower_third_le_one]
      · rw [hf0]
        linarith [rpow_upper_third_ge_one]
      · norm_num [d5, noiseFloor]

theorem specWindowKept_d5 : specWindowKept d5 (1/3) 0 = [0, 1, 2, 3] := by
  have hf0 : frequencies.getD 0 0 = 20 := by norm_num [frequencies]
  rw [specWindowKept, hf0]
  rw [show frequencies.length = 31 from rfl]
  rw [List.filter_congr (q := fun j => decide (j < 4)) ?_]
  · decide
  · intro j hj
    rw [List.mem_range] at hj
    rw [decide_eq_decide]
    constructor
    · rintro ⟨hlo, hhi, -⟩
      by_contra hge
      have h50 := freq_ge_50 j (by omega) hj
      linarith [rpow_upper_third]
    · intro hj4
      interval_cases j
      · exact ⟨by rw [hf0]; linarith [rpow_lower_third_le_one],
          by rw [hf0]; linarith [rpow_upper_third_ge_one],
          by norm_num [d5, noiseFloor]⟩
      · refine ⟨?_, ?_, ?_⟩
        · have : frequencies.getD 1 0 = 25 := by norm_num [frequencies]
          rw [this]; linarith [rpow_lower_third_le_one]
        · have : frequencies.getD 1 0 = 25 := by norm_num [frequencies]
          rw [this]; linarith [rpow_upper_third_ge_one]
        · norm_num [d5, noiseFloor]
      · refine ⟨?_, ?_, ?_⟩
        · have : frequencies.getD 2 0 = 31.5 := by norm_num [frequencies]
          rw [this]; linarith [rpow_lower_third_le_one]
        · have : frequencies.getD 2 0 = 31.5 := by norm_num [frequencies]
          rw [this]; linarith [rpow_upper_third_ge_one]
        · norm_num [d5, noiseFloor]
      · refine ⟨?_, ?_, ?_⟩
        · have : frequencies.getD 3 0 = 40 := by norm_num [frequencies]
          rw [this]; linarith [rpow_lower_third_le_one]
        · have : frequencies.getD 3 0 = 40 := by norm_num [frequencies]
          rw [this]; linarith [rpow_upper_third_ge_one]
        · norm_num [d5, noiseFloor]

/-- C5 counterexample: at band 0 (20 Hz) of the input `d5` with 1/3-octave
smoothing, `applySmoothing` returns 0 — the mean over the code's window
`[f·2^(-q/2), f·2^(q/2)]`, which holds band 0 alone — while the claim's
window with upper bound `f·2·2^(q/2)` holds bands 0–3 and demands the mean
3/2.  The claim's equality fails at this concrete input. -/
theorem smoothing_spec_window_counterexample :
    (applySmoothing d5 "1/3").getD 0 0 = 0 ∧
    specWindowMean d5 (1/3) 0 = 3/2 ∧
    (applySmoothing d5 "1/3").getD 0 0 ≠ specWindowMean d5 (1/3) 0 := by
  have hoct : octaveFraction "1/3" = 1/3 := by rw [octaveFraction, if_pos rfl]
  have h1 : (applySmoothing d5 "1/3").getD 0 0 = 0 := by
    rw [applySmoothing_getD d5 "1/3" 0 (by norm_num [d5]), hoct, smoothKept_d5]
    norm_num [d5]
  have h2 : specWindowMean d5 (1/3) 0 = 3/2 := by
    rw [specWindowMean, specWindowKept_d5]
    norm_num [d5]
  exact ⟨h1, h2, by rw [h1, h2]; norm_num⟩

/-- C5 (amended): for a 31-band input, band `i` and fraction
`q ∈ {1/3, 1/6, 1/12}`, `applySmoothing` sets band `i` to the arithmetic mean
of exactly those input values strictly above the noise floor at bands whose
center frequency lies in `[f·2^(-q/2), f·2^(q/2)]` — without the spec's extra
factor 2 in the upper bound — and keeps the original value when no such value
exists. -/
theorem smoothing_window_mean (data : List ℝ) (st : String) (q : ℝ) (i : ℕ)
    (hi : i < data.length)
    (hst : st = "1/3" ∧ q = 1/3 ∨ st = "1/6" ∧ q = 1/6 ∨
      st = "1/12" ∧ q = 1/12) :
    (applySmoothing data st).getD i 0 =
      if 0 < (smoothKept data q i).length then
        ((smoothKept data q i).map (fun j => data.getD j 0)).sum /
          (smoothKept data q i).length
      else data.getD i 0 := by
  have hq : octaveFraction st = q := by
    rcases hst with ⟨rfl, rfl⟩ | ⟨rfl, rfl⟩ | ⟨rfl, rfl⟩ <;>
      simp [octaveFraction]
  rw [applySmoothing_getD data st i hi, hq]

/-- Witness for the amended C5 at `d5`, band 0, fraction 1/3. -/
theorem smoothing_window_mean_witness :
    0 < d5.length ∧
    ("1/3" = "1/3" ∧ (1/3 : ℝ) = 1/3 ∨ "1/3" = "1/6" ∧ (1/3 : ℝ) = 1/6 ∨
      "1/3" = "1/12" ∧ (1/3 : ℝ) = 1/12) ∧
    (applySmoothing d5 "1/3").getD 0 0 =
      (if 0 < (smoothKept d5 (1/3) 0).length then
        ((smoothKept d5 (1/3) 0).map (fun j => d5.getD j 0)).sum /
          (smoothKept d5 (1/3) 0).length
      else d5.getD 0 0) :=
  ⟨by norm_num [d5], Or.inl ⟨rfl, rfl⟩,
    smoothing_window_mean d5 "1/3" (1/3) 0 (by norm_num [d5])
      (Or.inl ⟨rfl, rfl⟩)⟩

/-! ### The custom target curve -/

/-- Success test for a calibration result. -/
def isOkE {ε α : Type} : Except ε α → Bool
  | .ok _ => true
  | .error _ => false

/-- C7 counterexample: the `custom` entry of `targetCurves` is the fixed
all-zero 31-vector set by the constructor (no caller-supplied vector exists
anywhere in the repository), and a calibration run with `custom` and no such
vector succeeds rather than failing with `InvalidCurve`. -/
theorem custom_curve_counterexample :
    targetCurves "custom" = some (List.replicate 31 0) ∧
    isOkE (calculateCorrections [[(0:ℝ)]] "custom" "1/3" 48000) = true := by
  have hc : targetCurves "custom" = some (List.replicate 31 0) := by
    simp [targetCurves]
  refine ⟨hc, ?_⟩
  rw [calculateCorrections, if_neg (by simp), hc]
  rfl

/-- C7 (amended): with identifier `custom` the target curve used is the fixed
all-zero 31-vector from the constructor, and a calibration run over any
non-empty measurement list succeeds: the engine has no custom-curve
validation and no `InvalidCurve` failure path. -/
theorem custom_curve_fixed_zeros (ms : List (List ℝ)) (sm : String) (sr : ℝ)
    (hne : ms ≠ []) :
    targetCurves "custom" = some (List.replicate 31 0) ∧
    ∃ out, calculateCorrections ms "custom" sm sr = .ok out := by
  have hc : targetCurves "custom" = some (List.replicate 31 0) := by
    simp [targetCurves]
  refine ⟨hc, ?_⟩
  rw [calculateCorrections, if_neg hne, hc]
  exact ⟨_, rfl⟩

/-- Witness for the amended C7 at a one-snapshot session. -/
theorem custom_curve_fixed_zeros_witness :
    ([[(-5:ℝ)]] ≠ ([] : List (List ℝ))) ∧
    targetCurves "custom" = some (List.replicate 31 0) ∧
    ∃ out, calculateCorrections [[(-5:ℝ)]] "custom" "1/6" 44100 = .ok out :=
  ⟨by simp,
    (custom_curve_fixed_zeros [[(-5:ℝ)]] "1/6" 44100 (by simp)).1,
    (custom_curve_fixed_zeros [[(-5:ℝ)]] "1/6" 44100 (by simp)).2⟩

/-! ### The end-to-end scenario of claim C2

20 identical snapshots over 4096 FFT bins at 48 kHz sample rate (the
8192-point analyser of `calibrate`), −20 dB on the bins covering
100 Hz–10 kHz and −60 dB elsewhere; target `flat`, smoothing `1/3`. -/

/-- One scenario bin: −20 dB on the plateau, −60 dB elsewhere
(bin width `24000/4096 = 375/64` Hz). -/
noncomputable def snapVal (b : ℕ) : ℝ :=
  if (100:ℝ) ≤ (b:ℝ) * (375/64) ∧ (b:ℝ) * (375/64) ≤ 10000 then -20 else -60

noncomputable def scenarioSnapshot : List ℝ := (List.range 4096).map snapVal

noncomputable def scenarioMeasurements : List (List ℝ) :=
  List.replicate 20 scenarioSnapshot

theorem snapVal_gt_floor (b : ℕ) : noiseFloor < snapVal b := by
  rw [snapVal, noiseFloor]
  split_ifs <;> norm_num

theorem snapVal_le (b : ℕ) : snapVal b ≤ -20 := by
  rw [snapVal]
  split_ifs <;> norm_num

theorem scenarioSnapshot_length : scenarioSnapshot.length = 4096 := by
  simp [scenarioSnapshot]

/-- Averaging the 20 identical snapshots returns the snapshot itself. -/
theorem scenario_avg :
    averagedSpectrum scenarioMeasurements = scenarioSnapshot := by
  rw [averagedSpectrum]
  have hhead : scenarioMeasurements.headD [] = scenarioSnapshot := by
    rw [scenarioMeasurements, show (20:ℕ) = 19+1 from rfl, List.replicate_succ,
      List.headD_cons]
  rw [hhead, scenarioSnapshot_length]
  rw [scenarioSnapshot]
  apply List.map_congr_left
  intro b hb
  rw [List.mem_range] at hb
  apply avgBin_const (by rw [scenarioMeasurements]; simp) (snapVal_gt_floor b)
  intro m hm
  rw [scenarioMeasurements] at hm
  rw [List.eq_of_mem_replicate hm, scenarioSnapshot, getD_map_range, if_pos hb]

/-- The common `if count > 0 then mean else fallback` branch is bounded above
by any bound on the mapped values and the fallback. -/
theorem ite_mean_le {α : Type} {k : List α} {f : α → ℝ} {B fb : ℝ}
    (hfb : fb ≤ B) (hmem : ∀ b ∈ k, f b ≤ B) :
    (if 0 < k.length then (k.map f).sum / (k.length : ℝ) else fb) ≤ B := by
  split_ifs with h
  · rw [← List.length_map k f]
    apply list_sum_div_length_le
    · intro hc
      rw [List.map_eq_nil_iff] at hc
      rw [hc] at h
      simp at h
    · intro x hx
      rcases List.mem_map.mp hx with ⟨b, hb, rfl⟩
      exact hmem b hb
  · exact hfb

/-- An upper bound on every input value bounds every band
`extractFrequencyResponse` produces, provided it also bounds the floor. -/
theorem extractBand_le {data : List ℝ} {bw freq B : ℝ} (hB : noiseFloor ≤ B)
    (hdata : ∀ j, j < data.length → data.getD j 0 ≤ B) :
    extractBand data bw freq ≤ B := by
  simp only [extractBand, sumCount_eq]
  apply ite_mean_le hB
  intro b hb
  rcases List.mem_filter.mp hb with ⟨hacc, -⟩
  have hmem := mem_accessedBins.mp hacc
  apply hdata
  omega

/-- An upper bound on every input value is preserved by `applySmoothing` when
the input covers the whole grid. -/
theorem applySmoothing_le {data : List ℝ} {st : String} {B : ℝ}
    (hlen : frequencies.length ≤ data.length)
    (hdata : ∀ x ∈ data, x ≤ B) :
    ∀ x ∈ applySmoothing data st, x ≤ B := by
  have hgetD : ∀ j, j < data.length → data.getD j 0 ≤ B := by
    intro j hj
    apply hdata
    rw [List.getD_eq_getElem data 0 hj]
    exact List.getElem_mem hj
  intro x hx
  simp only [applySmoothing, sumCount_eq] at hx
  rcases mem_map_range.mp hx with ⟨i, hi, rfl⟩
  apply ite_mean_le (hgetD i hi)
  intro j hj
  rcases List.mem_filter.mp hj with ⟨hrange, -⟩
  rw [List.mem_range] at hrange
  exact hgetD j (by omega)

theorem getD_map_of_lt {α β : Type} (l : List α) (f : α → β) (n : ℕ) (d : β)
    (d' : α) (h : n < l.length) : (l.map f).getD n d = f (l.getD n d') := by
  rw [List.getD_eq_getElem _ d (by simpa using h), List.getElem_map,
    List.getD_eq_getElem _ d' h]

theorem getD_replicate_zero (n i : ℕ) :
    (List.replicate n (0:ℝ)).getD i 0 = 0 := by
  rcases lt_or_ge i n with h | h
  · rw [List.getD_eq_getElem _ 0 (by simpa using h), List.getElem_replicate]
  · rw [List.getD_eq_default _ 0 (by simpa using h)]

theorem snapVal_plateau (b : ℕ) (h1 : 18 ≤ b) (h2 : b ≤ 1706) :
    snapVal b = -20 := by
  have hb1 : (18:ℝ) ≤ (b:ℝ) := by exact_mod_cast h1
  have hb2 : (b:ℝ) ≤ 1706 := by exact_mod_cast h2
  rw [snapVal, if_pos]
  constructor <;> linarith

theorem scenario_getD_plateau (b : ℕ) (h1 : 18 ≤ b) (h2 : b ≤ 1706) :
    scenarioSnapshot.getD b 0 = -20 := by
  rw [scenarioSnapshot, getD_map_range, if_pos (by omega),
    snapVal_plateau b h1 h2]

/-- The 1 kHz band of the scenario reads bins 169–172, all on the plateau. -/
theorem scenario_extract_1000 :
    extractBand scenarioSnapshot (binWidthOf 48000 scenarioSnapshot.length)
      1000 = -20 := by
  have hbw : binWidthOf 48000 scenarioSnapshot.length = 375/64 := by
    rw [scenarioSnapshot_length, binWidthOf]
    norm_num
  rw [hbw]
  simp only [extractBand, sumCount_eq, scenarioSnapshot_length]
  have hfloor : ⌊(1000 : ℝ) / (375/64) - 1⌋ = 169 :=
    Int.floor_eq_iff.mpr (by norm_num)
  have hceil : ⌈(1000 : ℝ) / (375/64) + 1⌉ = 172 :=
    Int.ceil_eq_iff.mpr (by norm_num)
  rw [hfloor, hceil]
  have hacc : accessedBins 169 172 4096 = [169, 170, 171, 172] := by decide
  rw [hacc]
  have hvals : ∀ b ∈ [(169:ℤ), 170, 171, 172],
      scenarioSnapshot.getD b.toNat 0 = -20 := by
    intro b hb
    fin_cases hb <;>
      exact scenario_getD_plateau _ (by norm_num) (by norm_num)
  rw [List.filter_eq_self.mpr ?_]
  · have hmap : ([(169:ℤ), 170, 171, 172]).map
        (fun b => scenarioSnapshot.getD b.toNat 0) = [-20, -20, -20, -20] := by
      simp only [List.map_cons, List.map_nil]
      rw [hvals 169 (by norm_num), hvals 170 (by norm_num),
        hvals 171 (by norm_num), hvals 172 (by norm_num)]
    rw [hmap, if_pos (by norm_num)]
    norm_num
  · intro b hb
    rw [hvals b hb]
    exact decide_eq_true (by rw [noiseFloor]; norm_num)

/-- The extracted scenario response. -/
noncomputable def scenarioExtracted : List ℝ :=
  extractFrequencyResponse scenarioSnapshot frequencies 48000

theorem scenarioExtracted_def :
    extractFrequencyResponse scenarioSnapshot frequencies 48000 =
      scenarioExtracted := rfl

theorem scenarioExtracted_length : scenarioExtracted.length = 31 := by
  rw [scenarioExtracted, extractFrequencyResponse, List.length_map]
  rfl

theorem scenarioExtracted_le : ∀ x ∈ scenarioExtracted, x ≤ -20 := by
  intro x hx
  rw [scenarioExtracted, extractFrequencyResponse] at hx
  rcases List.mem_map.mp hx with ⟨f, -, rfl⟩
  apply extractBand_le (by rw [noiseFloor]; norm_num)
  intro j hj
  rw [scenarioSnapshot_length] at hj
  rw [scenarioSnapshot, getD_map_range, if_pos hj]
  exact snapVal_le j

theorem scenarioExtracted_17 : scenarioExtracted.getD 17 0 = -20 := by
  rw [scenarioExtracted, extractFrequencyResponse,
    getD_map_of_lt frequencies _ 17 0 0 (by norm_num [frequencies])]
  rw [show frequencies.getD 17 0 = 1000 by norm_num [frequencies]]
  exact scenario_extract_1000

theorem freq_le_800 : ∀ j, j < 17 → frequencies.getD j 0 ≤ 800 := by
  intro j hj
  interval_cases j <;> norm_num [frequencies]

theorem freq_ge_1250 : ∀ j, 18 ≤ j → j < 31 → (1250:ℝ) ≤ frequencies.getD j 0 := by
  intro j h1 h2
  interval_cases j <;> norm_num [frequencies]

/-- With 1/3-octave smoothing the 1 kHz window holds only band 17 itself. -/
theorem scenario_smoothKept_17 :
    smoothKept scenarioExtracted (1/3) 17 = [17] := by
  have hf17 : frequencies.getD 17 0 = 1000 := by norm_num [frequencies]
  rw [smoothKept, hf17, show frequencies.length = 31 from rfl]
  rw [List.filter_congr (q := fun j => decide (j = 17)) ?_]
  · decide
  · intro j hj
    rw [List.mem_range] at hj
    rw [decide_eq_decide]
    constructor
    · rintro ⟨hlo, hhi, -⟩
      by_contra hne
      rcases Nat.lt_or_ge j 17 with hlt | hge
      · have h800 := freq_le_800 j hlt
        linarith [rpow_lower_third_gt]
      · have h1250 := freq_ge_1250 j (by omega) hj
        linarith [rpow_upper_third]
    · rintro rfl
      refine ⟨?_, ?_, ?_⟩
      · rw [hf17]
        linarith [rpow_lower_third_le_one]
      · rw [hf17]
        linarith [rpow_upper_third_ge_one]
      · rw [scenarioExtracted_17, noiseFloor]
        norm_num

/-- The smoothed scenario response. -/
noncomputable def scenarioSmoothed : List ℝ :=
  applySmoothing scenarioExtracted "1/3"

theorem scenarioSmoothed_def :
    applySmoothing scenarioExtracted "1/3" = scenarioSmoothed := rfl

theorem scenarioSmoothed_length : scenarioSmoothed.length = 31 := by
  rw [scenarioSmoothed]
  simp only [applySmoothing, List.length_map, List.length_range]
  exact scenarioExtracted_length

theorem scenarioSmoothed_le : ∀ x ∈ scenarioSmoothed, x ≤ -20 :=
  applySmoothing_le
    (by rw [scenarioExtracted_length]; norm_num [frequencies])
    scenarioExtracted_le

theorem scenarioSmoothed_17 : scenarioSmoothed.getD 17 0 = -20 := by
  rw [scenarioSmoothed,
    applySmoothing_getD _ _ _ (by rw [scenarioExtracted_length]; norm_num)]
  rw [show octaveFraction "1/3" = 1/3 from by rw [octaveFraction, if_pos rfl]]
  rw [scenario_smoothKept_17]
  rw [if_pos (by norm_num)]
  simp only [List.map_cons, List.map_nil, List.sum_cons, List.sum_nil,
    List.length_cons, List.length_nil]
  rw [scenarioExtracted_17]
  norm_num

theorem scenarioSmoothed_max : listMax scenarioSmoothed = -20 := by
  apply le_antisymm
  · apply listMax_le
    · intro hc
      have hl := scenarioSmoothed_length
      rw [hc] at hl
      simp at hl
    · exact scenarioSmoothed_le
  · have hmem : scenarioSmoothed.getD 17 0 ∈ scenarioSmoothed := by
      rw [List.getD_eq_getElem _ 0 (by rw [scenarioSmoothed_length]; norm_num)]
      exact List.getElem_mem _
    have h := le_listMax hmem
    rwa [scenarioSmoothed_17] at h

theorem clampRound_ten {c : ℝ} (hc : 10 ≤ c) :
    roundHalf (clampCorrection c) = 10 := by
  have h1 : clampCorrection c = 10 := by
    rw [clampCorrection, min_eq_left hc, max_eq_right (by norm_num : (-10:ℝ) ≤ 10)]
  rw [h1, roundHalf, show (10:ℝ) * 2 = ((20:ℤ):ℝ) by norm_num, round_intCast]
  norm_num

theorem roundHalf_ten : roundHalf 10 = 10 := by
  rw [roundHalf, show (10:ℝ) * 2 = ((20:ℤ):ℝ) by norm_num, round_intCast]
  norm_num

theorem smoothCorrections_replicate_ten :
    smoothCorrections (List.replicate 31 (10:ℝ)) = List.replicate 31 10 := by
  have hg : ∀ j, j < 31 → (List.replicate 31 (10:ℝ)).getD j 0 = 10 := by
    intro j hj
    rw [List.getD_eq_getElem _ 0 (by simpa using hj), List.getElem_replicate]
  rw [smoothCorrections, List.length_replicate]
  apply List.eq_replicate_iff.mpr
  refine ⟨by simp, ?_⟩
  intro x hx
  rcases mem_map_range.mp hx with ⟨i, hi, rfl⟩
  split_ifs with h
  · rw [hg (i-1) (by omega), hg i hi, hg (i+1) (by omega),
      show ((10:ℝ) + 10 + 10) / 3 = 10 by norm_num]
    exact roundHalf_ten
  · exact hg i hi

/-- C2 (evaluation of the code at the claim's scenario): 20 identical
snapshots, −20 dB plateau over 100 Hz–10 kHz and −60 dB elsewhere, target
`flat`, noise floor −80 dB, reference level −20 dB.  The code returns
**+10 dB at every band**, including every band with center frequency inside
[100 Hz, 10 kHz] — not ≈0 dB there as the claim requires: the diff step uses
`target − normalized` while the normalized response peaks at the reference
level −20 dB, so the reference level is never subtracted back out (the first
`Calibration` variant in the same file computes
`target − (measured − referenceLevel)`). -/
theorem end_to_end_scenario_all_ten :
    calculateCorrections scenarioMeasurements "flat" "1/3" 48000 =
      .ok (List.replicate 31 (10:ℝ)) := by
  have hne : scenarioMeasurements ≠ [] := by
    rw [scenarioMeasurements]
    simp
  have hflat : targetCurves "flat" = some (List.replicate 31 0) := by
    rw [targetCurves, if_pos rfl]
  rw [calculateCorrections, if_neg hne, hflat]
  simp only [scenario_avg, scenarioExtracted_def, scenarioSmoothed_def,
    scenarioSmoothed_max]
  have hcor : (List.range frequencies.length).map (fun i =>
      roundHalf (clampCorrection
        (((List.replicate 31 (0:ℝ)).getD i 0 -
          (scenarioSmoothed.map
            (fun v => v - (-20) + referenceLevel)).getD i 0) * 0.7)))
      = List.replicate 31 10 := by
    rw [show frequencies.length = 31 from rfl]
    apply List.eq_replicate_iff.mpr
    refine ⟨by simp, ?_⟩
    intro x hx
    rcases mem_map_range.mp hx with ⟨i, hi, rfl⟩
    have hn : (scenarioSmoothed.map
        (fun v => v - (-20) + referenceLevel)).getD i 0 =
        scenarioSmoothed.getD i 0 := by
      rw [getD_map_of_lt _ _ i 0 0 (by rw [scenarioSmoothed_length]; omega),
        referenceLevel]
      ring
    rw [getD_replicate_zero, hn]
    apply clampRound_ten
    have hub : scenarioSmoothed.getD i 0 ≤ -20 := by
      apply scenarioSmoothed_le
      rw [List.getD_eq_getElem _ 0 (by rw [scenarioSmoothed_length]; omega)]
      exact List.getElem_mem _
    linarith
  rw [hcor, smoothCorrections_replicate_ten]

/-- Witness for C3: a one-snapshot session against the flat curve. -/
theorem corrections_clamped_quantized_witness :
    ([[(-30:ℝ)]] ≠ ([] : List (List ℝ))) ∧
    (targetCurves "flat").isSome = true ∧
    ∃ out, calculateCorrections [[(-30:ℝ)]] "flat" "1/3" 48000 = .ok out ∧
      ∀ x ∈ out, -10 ≤ x ∧ x ≤ 10 ∧ ∃ k : ℤ, x = (k : ℝ) / 2 :=
  ⟨by simp, by rw [targetCurves]; rfl,
    corrections_clamped_quantized [[(-30:ℝ)]] "flat" "1/3" 48000 (by simp)
      (by rw [targetCurves]; rfl)⟩

end CarAudioEq
